import Mathlib

/-!
Verification of the bitbucket-mcp server (src/index.ts) and its bounded
pagination traversal engine.  The traversal engine itself lives in the
`pagination` module, which is imported by `index.ts`; its behaviour is
modelled here from the design document.  Everything that is decided by
code present in `index.ts` (caller glue, dangerous-tool gating, config
normalization) is embedded directly from that source.
-/

namespace BitbucketMcp

/-! ## Pagination policy and caller intent -/

/-- Modelled from the spec: the three process-wide pagination policy
constants (`BITBUCKET_DEFAULT_PAGELEN`, `BITBUCKET_MAX_PAGELEN`,
`BITBUCKET_ALL_ITEMS_CAP`) exported by the missing `pagination` module.
Following the design note, they are modelled as a configuration value
injected into the Paginator.  Page sizes are JS numbers, modelled as
rationals; the item cap counts list elements, so it is a natural. -/
structure PaginationPolicy where
  defaultPagelen : ℚ
  maxPagelen : ℚ
  allItemsCap : ℕ
deriving DecidableEq

/-- A caller-supplied `pagelen` value as a tool-calling agent may send it:
absent, a finite JS number, `NaN`, an infinity, or a non-numeric value. -/
inductive PagelenArg where
  | absent
  | finite (q : ℚ)
  | nan
  | posInf
  | negInf
  | nonNumber
deriving DecidableEq

/-- Modelled from the spec: caller intent for one listing call
(the options object passed to `paginator.fetchValues` at every call
site in `index.ts`: `pagelen`, `page`, `all`, `params`, `description`). -/
structure PaginationRequest where
  pagelen : PagelenArg
  page : Option ℕ
  all : Bool
  params : List (String × String)
  description : String
deriving DecidableEq

/-- Modelled from the spec: one page body as the Transport returns it —
the items under `values` plus the raw `next`/`previous` links. -/
structure Page (α : Type) where
  values : List α
  next : Option String
  previous : Option String
deriving DecidableEq

/-- The shape of one Transport GET issued by the Paginator: the first
page of a resource, an explicitly numbered page, or a continuation link
replayed verbatim. -/
inductive PageRequest where
  | first (path : String) (params : List (String × String)) (pagelen : ℚ)
  | byPage (path : String) (params : List (String × String)) (pagelen : ℚ) (page : ℕ)
  | byNext (url : String)
deriving DecidableEq

/-- The HTTP Transport collaborator: one GET, returning a page body or a
transport-kind error (network, HTTP status, deserialization). -/
def Transport (α : Type) : Type := PageRequest → Except String (Page α)

/-- Modelled from the spec: a failed traversal surfaces one error
enriched with the `description` label and the page index being fetched.
`outOfFuel` models a traversal that never terminates (only reachable
when the fuel bound is too small). -/
inductive PaginationError where
  | transport (message : String) (description : String) (pageIndex : ℕ)
  | outOfFuel
deriving DecidableEq

/-- Modelled from the spec: the aggregate outcome of one traversal. -/
structure PaginationResult (α : Type) where
  values : List α
  page : ℕ
  pagelen : ℚ
  next : Option String
  previous : Option String
  fetchedPages : ℕ
  totalFetched : ℕ
deriving DecidableEq

/-- Modelled from the spec: result assembly; `totalFetched` is the count
of items in `values`. -/
def mkResult {α : Type} (values : List α) (page : ℕ) (pagelen : ℚ)
    (next previous : Option String) (fetchedPages : ℕ) : PaginationResult α :=
  { values := values, page := page, pagelen := pagelen, next := next,
    previous := previous, fetchedPages := fetchedPages,
    totalFetched := values.length }

/-! ## Parameter normalization -/

/-- Modelled from the spec: the effective page size.  A finite numeric
`pagelen` of at least 1 is clamped to the inclusive range
`[1, maxPagelen]` ("caps at MAX_PAGELEN" per the tool schema); a
`pagelen` that is absent, zero, negative, non-finite or non-numeric is
treated as absent and falls back to `defaultPagelen`. -/
def effectivePagelen (policy : PaginationPolicy) : PagelenArg → ℚ
  | .finite q => if 1 ≤ q then min q policy.maxPagelen else policy.defaultPagelen
  | _ => policy.defaultPagelen

/-- A `pagelen` argument that the Paginator treats as absent (everything
except a finite number of at least 1). -/
def isInvalidPagelen : PagelenArg → Bool
  | .finite q => decide (q < 1)
  | _ => true

/-! ## Traversal -/

/-- Modelled from the spec: the exhaustive-mode loop after the first
page.  `acc` holds the items accumulated so far, `pages` the number of
Transport calls already made, `url` the continuation link to replay.
Each step fetches the link, appends the page's items, and stops either
when the accumulator has reached the cap (truncating to exactly the cap)
or when no `next` link is present; a Transport failure aborts with an
enriched error.  The fuel argument only models non-termination. -/
def followNext {α : Type} (cap : ℕ) (pl : ℚ) (desc : String) (t : Transport α) :
    ℕ → List α → ℕ → String →
      Except PaginationError (PaginationResult α) × List PageRequest
  | 0, _, _, _ => (.error .outOfFuel, [])
  | fuel+1, acc, pages, url =>
    match t (.byNext url) with
    | .error msg => (.error (.transport msg desc (pages + 1)), [.byNext url])
    | .ok pg =>
      let acc2 := acc ++ pg.values
      if cap ≤ acc2.length then
        (.ok (mkResult (acc2.take cap) (pages + 1) pl pg.next pg.previous (pages + 1)),
         [.byNext url])
      else
        match pg.next with
        | none =>
          (.ok (mkResult acc2 (pages + 1) pl none pg.previous (pages + 1)),
           [.byNext url])
        | some u =>
          match followNext cap pl desc t fuel acc2 (pages + 1) u with
          | (res, reqs) => (res, .byNext url :: reqs)

/-- Modelled from the spec: `fetchValues`, instrumented with the list of
Transport requests it issues (in order).  Explicit-page mode makes one
call for the requested page; single-page mode one call for the natural
first page; exhaustive mode (`all` truthy, `page` absent) loops over
continuation links, stopping immediately if the very first page is
empty, truncating at the item cap, and otherwise following `next`. -/
def fetchValuesT {α : Type} (policy : PaginationPolicy) (t : Transport α)
    (path : String) (req : PaginationRequest) (fuel : ℕ) :
    Except PaginationError (PaginationResult α) × List PageRequest :=
  let pl := effectivePagelen policy req.pagelen
  match req.page with
  | some p =>
    match t (.byPage path req.params pl p) with
    | .error msg =>
      (.error (.transport msg req.description 1), [.byPage path req.params pl p])
    | .ok pg =>
      (.ok (mkResult pg.values p pl pg.next pg.previous 1),
       [.byPage path req.params pl p])
  | none =>
    if req.all then
      match t (.first path req.params pl) with
      | .error msg =>
        (.error (.transport msg req.description 1), [.first path req.params pl])
      | .ok pg =>
        if pg.values.isEmpty then
          (.ok (mkResult pg.values 1 pl pg.next pg.previous 1),
           [.first path req.params pl])
        else if policy.allItemsCap ≤ pg.values.length then
          (.ok (mkResult (pg.values.take policy.allItemsCap) 1 pl pg.next pg.previous 1),
           [.first path req.params pl])
        else
          match pg.next with
          | none =>
            (.ok (mkResult pg.values 1 pl none pg.previous 1),
             [.first path req.params pl])
          | some u =>
            match followNext policy.allItemsCap pl req.description t fuel pg.values 1 u with
            | (res, reqs) => (res, .first path req.params pl :: reqs)
    else
      match t (.first path req.params pl) with
      | .error msg =>
        (.error (.transport msg req.description 1), [.first path req.params pl])
      | .ok pg =>
        (.ok (mkResult pg.values 1 pl pg.next pg.previous 1),
         [.first path req.params pl])

/-- The caller-facing result of `fetchValues`: the aggregate or the
single propagated error. -/
def fetchValues {α : Type} (policy : PaginationPolicy) (t : Transport α)
    (path : String) (req : PaginationRequest) (fuel : ℕ) :
    Except PaginationError (PaginationResult α) :=
  (fetchValuesT policy t path req fuel).1

/-- The very first Transport request a given caller intent produces. -/
def firstRequest (policy : PaginationPolicy) (path : String)
    (req : PaginationRequest) : PageRequest :=
  match req.page with
  | some p => .byPage path req.params (effectivePagelen policy req.pagelen) p
  | none => .first path req.params (effectivePagelen policy req.pagelen)

/-- The page number recorded in the result when only one page is
fetched: the explicitly requested page, or the natural first page. -/
def requestedPage (req : PaginationRequest) : ℕ :=
  match req.page with
  | some p => p
  | none => 1

/-- The items a Transport would serve for one request (empty on
failure); used to relate a result to the trace of requests issued. -/
def respValues {α : Type} (t : Transport α) (rq : PageRequest) : List α :=
  match t rq with
  | .ok pg => pg.values
  | .error _ => []

/-! ## Caller glue (src/index.ts): legacy `limit` alias resolution -/

/-- JavaScript nullish coalescing `a ?? b` on a possibly-absent
`pagelen` argument: `b` only when `a` is absent (undefined). -/
def jsCoalesce (a b : PagelenArg) : PagelenArg :=
  match a with
  | .absent => b
  | _ => a

/-- JavaScript truthiness of an optional string (`undefined` and `""`
are falsy). -/
def jsTruthyStr : Option String → Bool
  | none => false
  | some s => !s.isEmpty

/-- From `listRepositories` (src/index.ts:2284-2334): resolve the
workspace (explicit argument, else the configured default, else an
`InvalidParams` error), build the name-filter query, and construct the
path and options object passed to `paginator.fetchValues`, with the
legacy `limit` alias resolved as `pagelen ?? legacyLimit`. -/
def listRepositoriesRequest (defaultWorkspace : Option String)
    (workspace : Option String) (pagelen : PagelenArg) (page : Option ℕ)
    (all : Bool) (name : Option String) (legacyLimit : PagelenArg) :
    Except String (String × PaginationRequest) :=
  let wsName := if jsTruthyStr workspace then workspace else defaultWorkspace
  if !jsTruthyStr wsName then
    .error "Workspace must be provided either as a parameter or through BITBUCKET_WORKSPACE environment variable"
  else
    let params :=
      if jsTruthyStr name then [("q", "name~\"" ++ name.getD "" ++ "\"")] else []
    .ok ("/repositories/" ++ wsName.getD "",
      { pagelen := jsCoalesce pagelen legacyLimit, page := page, all := all,
        params := params, description := "listRepositories" })

/-- From `getPullRequests` (src/index.ts:2410-2443): build the optional
state filter and the options object passed to `paginator.fetchValues`,
with the legacy `limit` alias resolved as `pagelen ?? legacyLimit`. -/
def getPullRequestsRequest (workspace repoSlug : String)
    (state : Option String) (pagelen : PagelenArg) (page : Option ℕ)
    (all : Bool) (legacyLimit : PagelenArg) : String × PaginationRequest :=
  let params := if jsTruthyStr state then [("state", state.getD "")] else []
  ("/repositories/" ++ workspace ++ "/" ++ repoSlug ++ "/pullrequests",
   { pagelen := jsCoalesce pagelen legacyLimit, page := page, all := all,
     params := params, description := "getPullRequests" })

/-- From `listPipelineRuns` (src/index.ts:3856-3899): build the optional
status, target-branch and trigger-type filters and the options object
passed to `paginator.fetchValues`, with the legacy `limit` alias
resolved as `pagelen ?? legacyLimit`. -/
def listPipelineRunsRequest (workspace repoSlug : String)
    (status targetBranch triggerType : Option String) (pagelen : PagelenArg)
    (page : Option ℕ) (all : Bool) (legacyLimit : PagelenArg) :
    String × PaginationRequest :=
  let params :=
    (if jsTruthyStr status then [("status", status.getD "")] else [])
      ++ (if jsTruthyStr targetBranch then [("target.branch", targetBranch.getD "")] else [])
      ++ (if jsTruthyStr triggerType then [("trigger_type", triggerType.getD "")] else [])
  ("/repositories/" ++ workspace ++ "/" ++ repoSlug ++ "/pipelines",
   { pagelen := jsCoalesce pagelen legacyLimit, page := page, all := all,
     params := params, description := "listPipelineRuns" })

/-- JavaScript `s.toLowerCase()` (character-wise lowering). -/
def jsToLower (s : String) : String := ⟨s.data.map Char.toLower⟩

/-- JavaScript `s.startsWith(pre)`. -/
def jsStartsWith (s pre : String) : Bool := pre.data.isPrefixOf s.data

/-! ## Dangerous-tool gating (src/index.ts) -/

/-- The explicitly dangerous tool names (src/index.ts:478-481). -/
def dangerousToolNames : List String :=
  ["deletePullRequestComment", "deletePullRequestTask"]

/-- From `isDangerousTool` (src/index.ts:482-487): explicitly dangerous
or matching the conservative case-insensitive regex `/^delete/i`. -/
def isDangerousTool (name : String) : Bool :=
  dangerousToolNames.contains name || jsStartsWith (jsToLower name) "delete"

/-- The names of every tool declared in the ListTools handler
(src/index.ts:576-1857); the CallTool switch dispatches exactly the
same set (src/index.ts:1884-2262). -/
def toolNames : List String :=
  ["listRepositories", "getRepository", "getPullRequests", "createPullRequest",
   "getPullRequest", "updatePullRequest", "getPullRequestActivity",
   "approvePullRequest", "unapprovePullRequest", "declinePullRequest",
   "mergePullRequest", "getPullRequestComments", "getPullRequestDiff",
   "getPullRequestCommits", "addPullRequestComment",
   "addPendingPullRequestComment", "publishPendingComments",
   "getRepositoryBranchingModel", "getRepositoryBranchingModelSettings",
   "updateRepositoryBranchingModelSettings",
   "getEffectiveRepositoryBranchingModel", "getProjectBranchingModel",
   "getProjectBranchingModelSettings", "updateProjectBranchingModelSettings",
   "createDraftPullRequest", "publishDraftPullRequest", "convertTodraft",
   "getPendingReviewPRs", "listPipelineRuns", "getPipelineRun", "runPipeline",
   "stopPipeline", "getPipelineSteps", "getPipelineStep",
   "getPipelineStepLogs", "getPullRequestComment", "updatePullRequestComment",
   "deletePullRequestComment", "resolveComment", "reopenComment",
   "getPullRequestDiffStat", "getPullRequestPatch", "getPullRequestTasks",
   "createPullRequestTask", "getPullRequestTask", "updatePullRequestTask",
   "deletePullRequestTask", "getPullRequestStatuses",
   "getEffectiveDefaultReviewers"]

/-- From the ListTools handler filter (src/index.ts:1857-1861): the
tools actually listed are those passing
`allowDangerousCommands === true || !isDangerousTool(name)`. -/
def listedTools (allowDangerous : Bool) : List String :=
  toolNames.filter (fun n => allowDangerous || !isDangerousTool n)

/-- Outcome of the CallTool handler before any Bitbucket HTTP request is
issued: rejected because the tool is disabled, rejected as unknown, or
dispatched to the tool's implementation (only dispatch can issue HTTP
requests). -/
inductive CallOutcome where
  | methodNotFoundDisabled
  | methodNotFoundUnknown
  | dispatched (name : String)
deriving DecidableEq

/-- From the CallTool handler (src/index.ts:1865-2268): a dangerous tool
is rejected with `MethodNotFound` before the dispatch switch whenever
dangerous commands are not enabled; otherwise known names are
dispatched and unknown names hit the `default` `MethodNotFound`. -/
def callTool (allowDangerous : Bool) (name : String) : CallOutcome :=
  if isDangerousTool name && !allowDangerous then .methodNotFoundDisabled
  else if toolNames.contains name then .dispatched name
  else .methodNotFoundUnknown

/-! ## Config normalization (src/index.ts) -/

/-- From the `BitbucketConfig` interface (src/index.ts:318-325). -/
structure BitbucketConfig where
  baseUrl : String
  token : Option String
  username : Option String
  password : Option String
  defaultWorkspace : Option String
  allowDangerousCommands : Option Bool
deriving DecidableEq

/-- The hostname and pathname of a parsed absolute URL, as the `URL`
constructor exposes them. -/
structure URLParts where
  hostname : String
  pathname : String
deriving DecidableEq

/-- JavaScript `s.replace(/\/+$/, "")`: drop every trailing slash. -/
def stripTrailingSlashes (s : String) : String :=
  ⟨(s.data.reverse.dropWhile (fun c => c = '/')).reverse⟩

/-- JavaScript `pathname.split("/").filter(Boolean)`: the non-empty path
segments. -/
def pathSegments (pathname : String) : List String :=
  ((pathname.data.splitOn '/').map (fun l => String.mk l)).filter (fun s => s ≠ "")

/-- JavaScript falsiness of the optional `defaultWorkspace` field
(`undefined` and `""` are falsy). -/
def jsFalsyStrOpt : Option String → Bool
  | none => true
  | some s => s.isEmpty

/-- From `normalizeBitbucketConfig` (src/index.ts:328-361), parameterized
by the `URL` parser (`parse` returns `none` exactly when `new URL`
throws).  A web URL on host `bitbucket.org`/`www.bitbucket.org` donates
its first path segment as the default workspace (when unset) and is
rewritten to the public API base; host `api.bitbucket.org` is rewritten
to the `/2.0` base; trailing slashes are stripped from every valid URL;
an unparsable `baseUrl` is kept as-is. -/
def normalizeBitbucketConfig (parse : String → Option URLParts)
    (rawConfig : BitbucketConfig) : BitbucketConfig :=
  match parse rawConfig.baseUrl with
  | none => rawConfig
  | some parsed =>
    let host := jsToLower parsed.hostname
    let c1 :=
      if host = "bitbucket.org" || host = "www.bitbucket.org" then
        let segments := pathSegments parsed.pathname
        let c :=
          if jsFalsyStrOpt rawConfig.defaultWorkspace then
            match segments with
            | s0 :: _ => { rawConfig with defaultWorkspace := some s0 }
            | [] => rawConfig
          else rawConfig
        { c with baseUrl := "https://api.bitbucket.org/2.0" }
      else rawConfig
    let c2 :=
      if host = "api.bitbucket.org" then
        let pathname := stripTrailingSlashes parsed.pathname
        if !jsStartsWith pathname "/2.0" then
          { c1 with baseUrl := "https://api.bitbucket.org/2.0" }
        else
          { c1 with baseUrl := "https://api.bitbucket.org/2.0" }
      else c1
    { c2 with baseUrl := stripTrailingSlashes c2.baseUrl }

/-! ## Concrete instances used to exercise the theorems -/

/-- A small policy instance: default page size 10, maximum page size
100, item cap 3 (small caps keep the runs short, per the design note on
injectable policy constants). -/
def exPolicy : PaginationPolicy := ⟨10, 100, 3⟩

/-- An exhaustive-mode caller intent (`all` true, `page` absent). -/
def exReqAll : PaginationRequest :=
  { pagelen := .absent, page := none, all := true, params := [],
    description := "listRepositories" }

/-- An explicit-page caller intent (`page` 2 with `all` also true, to
exercise the precedence of `page` over `all`). -/
def exReqPage2 : PaginationRequest :=
  { pagelen := .finite 30, page := some 2, all := true,
    params := [("state", "OPEN")], description := "getPullRequests" }

/-- An upstream serving `[1, 2]` with a continuation link `n2`, then
`[3, 4]` with a further link `n3`. -/
def exTransport : Transport ℕ := fun rq =>
  match rq with
  | .first _ _ _ => .ok ⟨[1, 2], some "n2", none⟩
  | .byNext u =>
    if u = "n2" then .ok ⟨[3, 4], some "n3", some "n1"⟩ else .error "unknown url"
  | .byPage _ _ _ _ => .error "unused"

/-- An upstream whose first page is empty but still carries a `next`
link `u` leading to more items. -/
def emptyFirstTransport : Transport ℕ := fun rq =>
  match rq with
  | .first _ _ _ => .ok ⟨[], some "u", none⟩
  | .byNext u => if u = "u" then .ok ⟨[7, 8], none, none⟩ else .error "unknown url"
  | .byPage _ _ _ _ => .error "unused"

/-- An upstream that fails every request. -/
def failingTransport : Transport ℕ := fun _ => .error "network down"

/-- An upstream whose first page succeeds with a `next` link but whose
continuation fetches all fail. -/
def secondPageFailTransport : Transport ℕ := fun rq =>
  match rq with
  | .first _ _ _ => .ok ⟨[1, 2], some "n2", none⟩
  | .byNext _ => .error "boom"
  | .byPage _ _ _ _ => .error "unused"

/-- An upstream serving only explicit page 2. -/
def pageTransport : Transport ℕ := fun rq =>
  match rq with
  | .byPage _ _ _ p => if p = 2 then .ok ⟨[5], some "nx", some "pv"⟩ else .error "bad page"
  | _ => .error "unused"

/-- A URL parser defined on the one web URL used in the config example. -/
def exParse : String → Option URLParts := fun s =>
  if s = "https://bitbucket.org/myws/repo/" then
    some ⟨"bitbucket.org", "/myws/repo/"⟩
  else none

/-- A raw configuration pointing at a web URL with no default
workspace. -/
def exRawConfig : BitbucketConfig :=
  { baseUrl := "https://bitbucket.org/myws/repo/", token := some "tok",
    username := none, password := none, defaultWorkspace := none,
    allowDangerousCommands := none }

/-! ## Traversal invariants -/

/-- Every successful outcome of the exhaustive-mode loop keeps
`totalFetched` equal to the item count, never exceeds the cap, stops
only at the cap or at a missing `next` link, and returns exactly the
accumulator followed by the fetched pages' items in order, truncated at
the cap. -/
theorem followNext_ok_inv {α : Type} (cap : ℕ) (pl : ℚ) (desc : String)
    (t : Transport α) :
    ∀ (fuel : ℕ) (acc : List α) (pages : ℕ) (url : String)
      (r : PaginationResult α) (reqs : List PageRequest),
      followNext cap pl desc t fuel acc pages url = (.ok r, reqs) →
      r.totalFetched = r.values.length ∧
      r.values.length ≤ cap ∧
      (r.values.length = cap ∨ r.next = none) ∧
      r.values = (acc ++ reqs.flatMap (respValues t)).take cap := by
  intro fuel
  induction fuel with
  | zero =>
    intro acc pages url r reqs h
    simp [followNext] at h
  | succ n ih =>
    intro acc pages url r reqs h
    rw [followNext] at h
    cases ht : t (.byNext url) with
    | error msg =>
      simp only [ht] at h
      injection h with h1 h2
      exact Except.noConfusion h1
    | ok pg =>
      simp only [ht] at h
      by_cases hcap : cap ≤ (acc ++ pg.values).length
      · rw [if_pos hcap] at h
        injection h with h1 h2
        injection h1 with h1
        subst h1 h2
        refine ⟨rfl, ?_, ?_, ?_⟩
        · simp [mkResult, List.length_take]
        · left
          simp only [mkResult]
          rw [List.length_take]
          exact Nat.min_eq_left hcap
        · simp [mkResult, respValues, ht]
      · rw [if_neg hcap] at h
        cases hn : pg.next with
        | none =>
          simp only [hn] at h
          injection h with h1 h2
          injection h1 with h1
          subst h1 h2
          refine ⟨rfl, le_of_lt (lt_of_not_le hcap), Or.inr rfl, ?_⟩
          simp only [mkResult, respValues, ht, List.flatMap_cons,
            List.flatMap_nil, List.append_nil]
          exact (List.take_of_length_le (le_of_lt (lt_of_not_le hcap))).symm
        | some u =>
          simp only [hn] at h
          cases hrec : followNext cap pl desc t n (acc ++ pg.values) (pages + 1) u with
          | mk res reqs2 =>
            rw [hrec] at h
            injection h with h1 h2
            subst h1 h2
            obtain ⟨ha, hb, hc, hd⟩ := ih (acc ++ pg.values) (pages + 1) u r reqs2 hrec
            refine ⟨ha, hb, hc, ?_⟩
            rw [hd]
            simp [respValues, ht, List.append_assoc]

/-- Main case analysis on a successful `fetchValues` traversal:
`totalFetched` matches the item count; in exhaustive mode the items are
the fetched pages' items in order truncated at the cap and the
traversal stops only at the cap, at a missing `next` link, or on an
empty first page; in the single-call modes the items are exactly the
single fetched page's items. -/
theorem fetchValuesT_ok_main {α : Type} (policy : PaginationPolicy)
    (t : Transport α) (path : String) (req : PaginationRequest) (fuel : ℕ)
    (r : PaginationResult α) (reqs : List PageRequest)
    (h : fetchValuesT policy t path req fuel = (.ok r, reqs)) :
    r.totalFetched = r.values.length ∧
    (req.page = none → req.all = true →
      r.values.length ≤ policy.allItemsCap ∧
      (r.values.length = policy.allItemsCap ∨ r.next = none ∨
        (r.fetchedPages = 1 ∧ r.values = [])) ∧
      r.values = (reqs.flatMap (respValues t)).take policy.allItemsCap) ∧
    (∀ p, req.page = some p → r.values = reqs.flatMap (respValues t)) ∧
    (req.page = none → req.all = false → r.values = reqs.flatMap (respValues t)) := by
  cases hpage : req.page with
  | some p =>
    simp only [fetchValuesT, hpage] at h
    cases hcall : t (.byPage path req.params (effectivePagelen policy req.pagelen) p) with
    | error msg =>
      simp only [hcall] at h
      injection h with h1 h2
      exact Except.noConfusion h1
    | ok pg =>
      simp only [hcall] at h
      injection h with h1 h2
      injection h1 with h1
      subst h1 h2
      refine ⟨rfl, ?_, ?_, ?_⟩
      · intro hn; exact Option.noConfusion hn
      · intro q hq
        simp [mkResult, respValues, hcall]
      · intro hn; exact Option.noConfusion hn
  | none =>
    cases hall : req.all with
    | false =>
      simp only [fetchValuesT, hpage, hall, if_false] at h
      cases hcall : t (.first path req.params (effectivePagelen policy req.pagelen)) with
      | error msg =>
        simp only [hcall] at h
        injection h with h1 h2
        exact Except.noConfusion h1
      | ok pg =>
        simp only [hcall] at h
        injection h with h1 h2
        injection h1 with h1
        subst h1 h2
        refine ⟨rfl, ?_, ?_, ?_⟩
        · intro _ htrue; exact absurd htrue (by simp)
        · intro q hq; exact Option.noConfusion hq
        · intro _ _
          simp [mkResult, respValues, hcall]
    | true =>
      simp only [fetchValuesT, hpage, hall, if_true] at h
      cases hcall : t (.first path req.params (effectivePagelen policy req.pagelen)) with
      | error msg =>
        simp only [hcall] at h
        injection h with h1 h2
        exact Except.noConfusion h1
      | ok pg =>
        simp only [hcall] at h
        cases hemp : pg.values.isEmpty with
        | true =>
          simp only [hemp, if_true] at h
          injection h with h1 h2
          injection h1 with h1
          subst h1 h2
          have hnil : pg.values = [] := List.isEmpty_iff.mp hemp
          refine ⟨rfl, ?_, ?_, ?_⟩
          · intro _ _
            refine ⟨by simp [mkResult, hnil], Or.inr (Or.inr ⟨rfl, hnil⟩), ?_⟩
            simp [mkResult, respValues, hcall, hnil]
          · intro q hq; exact Option.noConfusion hq
          · intro _ hfalse; exact absurd hfalse (by simp)
        | false =>
          simp only [hemp, if_false] at h
          by_cases hcap : policy.allItemsCap ≤ pg.values.length
          · rw [if_pos hcap] at h
            injection h with h1 h2
            injection h1 with h1
            subst h1 h2
            refine ⟨rfl, ?_, ?_, ?_⟩
            · intro _ _
              refine ⟨by simp [mkResult, List.length_take], ?_, ?_⟩
              · left
                simp only [mkResult]
                rw [List.length_take]
                exact Nat.min_eq_left hcap
              · simp [mkResult, respValues, hcall]
            · intro q hq; exact Option.noConfusion hq
            · intro _ hfalse; exact absurd hfalse (by simp)
          · rw [if_neg hcap] at h
            cases hn : pg.next with
            | none =>
              simp only [hn] at h
              injection h with h1 h2
              injection h1 with h1
              subst h1 h2
              refine ⟨rfl, ?_, ?_, ?_⟩
              · intro _ _
                refine ⟨le_of_lt (lt_of_not_le hcap), Or.inr (Or.inl rfl), ?_⟩
                simp only [mkResult, respValues, hcall, List.flatMap_cons,
                  List.flatMap_nil, List.append_nil]
                exact (List.take_of_length_le (le_of_lt (lt_of_not_le hcap))).symm
              · intro q hq; exact Option.noConfusion hq
              · intro _ hfalse; exact absurd hfalse (by simp)
            | some u =>
              simp only [hn] at h
              cases hrec : followNext policy.allItemsCap
                  (effectivePagelen policy req.pagelen) req.description t fuel
                  pg.values 1 u with
              | mk res reqs2 =>
                rw [hrec] at h
                injection h with h1 h2
                subst h1 h2
                obtain ⟨ha, hb, hc, hd⟩ :=
                  followNext_ok_inv policy.allItemsCap
                    (effectivePagelen policy req.pagelen) req.description t fuel
                    pg.values 1 u r reqs2 hrec
                refine ⟨ha, ?_, ?_, ?_⟩
                · intro _ _
                  refine ⟨hb, ?_, ?_⟩
                  · rcases hc with hc | hc
                    · exact Or.inl hc
                    · exact Or.inr (Or.inl hc)
                  · rw [hd]
                    simp [respValues, hcall]
                · intro q hq; exact Option.noConfusion hq
                · intro _ hfalse; exact absurd hfalse (by simp)

/-! ## Claim theorems -/

/-- C5: for every successful `PaginationResult` returned by
`fetchValues`, whatever the mode and however the traversal terminated,
`totalFetched` equals `values.length`. -/
theorem fetchValues_totalFetched_eq_values_length {α : Type}
    (policy : PaginationPolicy) (t : Transport α) (path : String)
    (req : PaginationRequest) (fuel : ℕ) (r : PaginationResult α)
    (h : fetchValues policy t path req fuel = .ok r) :
    r.totalFetched = r.values.length := by
  have h2 : fetchValuesT policy t path req fuel
      = (.ok r, (fetchValuesT policy t path req fuel).2) := by
    rw [← h]; rfl
  exact (fetchValuesT_ok_main policy t path req fuel r _ h2).1

/-- Closed instance of `fetchValues_totalFetched_eq_values_length` on a
concrete two-page exhaustive run. -/
theorem fetchValues_totalFetched_eq_values_length_witness :
    (⟨[1, 2, 3], 2, 10, some "n3", some "n1", 2, 3⟩ : PaginationResult ℕ).totalFetched
      = (⟨[1, 2, 3], 2, 10, some "n3", some "n1", 2, 3⟩ : PaginationResult ℕ).values.length :=
  fetchValues_totalFetched_eq_values_length exPolicy exTransport
    "/repositories/w" exReqAll 5 _ rfl

/-- C1 (amended): in exhaustive mode a successful traversal never
returns more than `allItemsCap` items, and it stops only because the
cap was reached (returning exactly `allItemsCap` items), because the
last fetched page had no `next` link, or because the very first page
was empty (in which case a `next` link may remain). -/
theorem fetchValues_exhaustive_cap_invariant {α : Type}
    (policy : PaginationPolicy) (t : Transport α) (path : String)
    (req : PaginationRequest) (fuel : ℕ) (r : PaginationResult α)
    (hpage : req.page = none) (hall : req.all = true)
    (h : fetchValues policy t path req fuel = .ok r) :
    r.values.length ≤ policy.allItemsCap ∧
    (r.values.length = policy.allItemsCap ∨ r.next = none ∨
      (r.fetchedPages = 1 ∧ r.values = [])) := by
  have h2 : fetchValuesT policy t path req fuel
      = (.ok r, (fetchValuesT policy t path req fuel).2) := by
    rw [← h]; rfl
  have main := (fetchValuesT_ok_main policy t path req fuel r _ h2).2.1 hpage hall
  exact ⟨main.1, main.2.1⟩

/-- C1 counterexample: with cap 3, an exhaustive traversal whose first
page is empty but carries a `next` link stops after one fetch, with a
`next` link still present and fewer than `allItemsCap` items — although
the upstream could have served more items — so the traversal does not
continue until "no `next` link or the cap is reached" as claimed. -/
theorem fetchValues_exhaustive_stop_counterexample :
    fetchValues exPolicy emptyFirstTransport "/repositories/w" exReqAll 5
      = .ok ⟨[], 1, 10, some "u", none, 1, 0⟩
    ∧ ¬((⟨[], 1, 10, some "u", none, 1, 0⟩ : PaginationResult ℕ).values.length
          = exPolicy.allItemsCap
        ∨ (⟨[], 1, 10, some "u", none, 1, 0⟩ : PaginationResult ℕ).next = none)
    ∧ emptyFirstTransport (.byNext "u") = .ok ⟨[7, 8], none, none⟩ := by
  refine ⟨rfl, ?_, rfl⟩
  intro hstop
  rcases hstop with hcap | hnext
  · exact absurd hcap (by decide)
  · exact absurd hnext (by decide)

/-- Closed instance of `fetchValues_exhaustive_cap_invariant` on a
concrete run that hits the item cap. -/
theorem fetchValues_exhaustive_cap_invariant_witness :
    (⟨[1, 2, 3], 2, 10, some "n3", some "n1", 2, 3⟩ : PaginationResult ℕ).values.length
        ≤ exPolicy.allItemsCap ∧
    ((⟨[1, 2, 3], 2, 10, some "n3", some "n1", 2, 3⟩ : PaginationResult ℕ).values.length
          = exPolicy.allItemsCap
      ∨ (⟨[1, 2, 3], 2, 10, some "n3", some "n1", 2, 3⟩ : PaginationResult ℕ).next = none
      ∨ ((⟨[1, 2, 3], 2, 10, some "n3", some "n1", 2, 3⟩ : PaginationResult ℕ).fetchedPages = 1
          ∧ (⟨[1, 2, 3], 2, 10, some "n3", some "n1", 2, 3⟩ : PaginationResult ℕ).values = [])) :=
  fetchValues_exhaustive_cap_invariant exPolicy exTransport "/repositories/w"
    exReqAll 5 _ rfl rfl rfl

/-- C2: a Transport failure aborts the whole call with a single
propagated error enriched with the description and the failing page
index.  The first conjunct covers a failing first call in any mode; the
second covers a failing continuation fetch at any depth: the error (and
the whole outcome) is independent of the accumulator `acc`, so no
values content from earlier pages is returned or attached. -/
theorem fetchValues_transport_failure_aborts {α : Type}
    (policy : PaginationPolicy) (t : Transport α) (path : String)
    (req : PaginationRequest) (fuel : ℕ) :
    (∀ msg, t (firstRequest policy path req) = .error msg →
      fetchValuesT policy t path req fuel
        = (.error (.transport msg req.description 1),
           [firstRequest policy path req]))
    ∧ (∀ (cap : ℕ) (pl : ℚ) (desc : String) (acc : List α) (pages : ℕ)
        (url : String) (msg : String),
        t (.byNext url) = .error msg →
        followNext cap pl desc t (fuel + 1) acc pages url
          = (.error (.transport msg desc (pages + 1)), [.byNext url])) := by
  constructor
  · intro msg hfail
    cases hpage : req.page with
    | some p =>
      simp only [firstRequest, hpage] at hfail
      simp only [fetchValuesT, firstRequest, hpage, hfail]
    | none =>
      simp only [firstRequest, hpage] at hfail
      cases hall : req.all with
      | false =>
        simp only [fetchValuesT, firstRequest, hpage, hall, hfail,
          Bool.false_eq_true, if_false]
      | true => simp only [fetchValuesT, firstRequest, hpage, hall, if_true, hfail]
  · intro cap pl desc acc pages url msg hfail
    rw [followNext]
    simp only [hfail]

/-- Closed instance of `fetchValues_transport_failure_aborts`: a
failing first fetch and a failing second fetch (after `[1, 2]` had
already been accumulated) each produce exactly one enriched error. -/
theorem fetchValues_transport_failure_aborts_witness :
    fetchValuesT exPolicy failingTransport "/repositories/w" exReqAll 5
      = (.error (.transport "network down" "listRepositories" 1),
         [firstRequest exPolicy "/repositories/w" exReqAll])
    ∧ followNext exPolicy.allItemsCap 10 "listRepositories"
        secondPageFailTransport 5 [1, 2] 1 "n2"
      = (.error (.transport "boom" "listRepositories" 2), [.byNext "n2"]) :=
  ⟨(fetchValues_transport_failure_aborts exPolicy failingTransport
      "/repositories/w" exReqAll 5).1 "network down" rfl,
   (fetchValues_transport_failure_aborts exPolicy secondPageFailTransport
      "/repositories/w" exReqAll 4).2 exPolicy.allItemsCap 10 "listRepositories"
      [1, 2] 1 "n2" "boom" rfl⟩

/-- C3 (amended): a `pagelen` that is zero, negative, non-finite or
non-numeric is treated as absent — the effective page size equals
`defaultPagelen` and the whole `fetchValues` call behaves exactly as if
`pagelen` had been omitted (it is never rejected with an error).  A
finite `pagelen` above `maxPagelen` is instead clamped to
`maxPagelen`. -/
theorem effectivePagelen_invalid_defaults {α : Type}
    (policy : PaginationPolicy) (t : Transport α) (path : String) (fuel : ℕ) :
    (∀ q : ℚ, q < 1 → effectivePagelen policy (.finite q) = policy.defaultPagelen)
    ∧ effectivePagelen policy .absent = policy.defaultPagelen
    ∧ effectivePagelen policy .nan = policy.defaultPagelen
    ∧ effectivePagelen policy .posInf = policy.defaultPagelen
    ∧ effectivePagelen policy .negInf = policy.defaultPagelen
    ∧ effectivePagelen policy .nonNumber = policy.defaultPagelen
    ∧ (∀ q : ℚ, 1 ≤ q →
        effectivePagelen policy (.finite q) = min q policy.maxPagelen)
    ∧ (∀ req : PaginationRequest, isInvalidPagelen req.pagelen = true →
        fetchValuesT (α := α) policy t path req fuel
          = fetchValuesT policy t path { req with pagelen := .absent } fuel) := by
  refine ⟨?_, rfl, rfl, rfl, rfl, rfl, ?_, ?_⟩
  · intro q hq
    simp only [effectivePagelen, if_neg (not_le.mpr hq)]
  · intro q hq
    simp only [effectivePagelen, if_pos hq]
  · intro req hreq
    obtain ⟨a, pg, al, pr, d⟩ := req
    have heff : effectivePagelen policy a = effectivePagelen policy .absent := by
      cases a with
      | finite q =>
        simp only [isInvalidPagelen, decide_eq_true_eq] at hreq
        simp only [effectivePagelen, if_neg (not_le.mpr hreq)]
      | absent => rfl
      | nan => rfl
      | posInf => rfl
      | negInf => rfl
      | nonNumber => rfl
    simp only [fetchValuesT]
    rw [heff]

/-- C3 counterexample: with `defaultPagelen` 10 and `maxPagelen` 100, a
finite `pagelen` of 101 — outside `[1, maxPagelen]` — yields effective
page size 100 (the clamp), not `defaultPagelen` as the claim states. -/
theorem effectivePagelen_above_max_counterexample :
    effectivePagelen exPolicy (.finite 101) = 100
    ∧ effectivePagelen exPolicy (.finite 101) ≠ exPolicy.defaultPagelen := by
  constructor
  · norm_num [effectivePagelen, exPolicy]
  · norm_num [effectivePagelen, exPolicy]

/-- Closed instance of `effectivePagelen_invalid_defaults`: `pagelen` 0
falls back to the default, and a `NaN` `pagelen` makes the whole
traversal behave exactly as an absent one. -/
theorem effectivePagelen_invalid_defaults_witness :
    effectivePagelen exPolicy (.finite 0) = exPolicy.defaultPagelen
    ∧ fetchValuesT exPolicy exTransport "/repositories/w"
        { pagelen := .nan, page := none, all := true, params := [],
          description := "listRepositories" } 5
      = fetchValuesT exPolicy exTransport "/repositories/w"
          { pagelen := .absent, page := none, all := true, params := [],
            description := "listRepositories" } 5 :=
  ⟨(effectivePagelen_invalid_defaults exPolicy exTransport "/repositories/w" 5).1
      0 (by norm_num),
   (effectivePagelen_invalid_defaults exPolicy exTransport
      "/repositories/w" 5).2.2.2.2.2.2.2
      { pagelen := .nan, page := none, all := true, params := [],
        description := "listRepositories" } rfl⟩

/-- C4: when `page` is set, `fetchValues` makes exactly one Transport
call — for that page with the effective page size — regardless of
`all`, and the `next`/`previous` links of that single response are
copied into the result unmodified. -/
theorem fetchValues_explicit_page_single_call {α : Type}
    (policy : PaginationPolicy) (t : Transport α) (path : String)
    (req : PaginationRequest) (fuel : ℕ) (p : ℕ) (hp : req.page = some p) :
    (fetchValuesT policy t path req fuel).2
      = [.byPage path req.params (effectivePagelen policy req.pagelen) p]
    ∧ (∀ pg, t (.byPage path req.params (effectivePagelen policy req.pagelen) p) = .ok pg →
        fetchValues policy t path req fuel
          = .ok (mkResult pg.values p (effectivePagelen policy req.pagelen)
              pg.next pg.previous 1)) := by
  constructor
  · simp only [fetchValuesT, hp]
    cases hcall : t (.byPage path req.params (effectivePagelen policy req.pagelen) p) with
    | error msg => simp [hcall]
    | ok pg => simp [hcall]
  · intro pg hcall
    simp only [fetchValues, fetchValuesT, hp, hcall]

/-- Closed instance of `fetchValues_explicit_page_single_call` on a
request with `page` 2 and `all` true. -/
theorem fetchValues_explicit_page_single_call_witness :
    (fetchValuesT exPolicy pageTransport "/pr" exReqPage2 5).2
      = [.byPage "/pr" [("state", "OPEN")]
          (effectivePagelen exPolicy exReqPage2.pagelen) 2]
    ∧ fetchValues exPolicy pageTransport "/pr" exReqPage2 5
      = .ok (mkResult [5] 2 (effectivePagelen exPolicy exReqPage2.pagelen)
          (some "nx") (some "pv") 1) :=
  ⟨(fetchValues_explicit_page_single_call exPolicy pageTransport "/pr"
      exReqPage2 5 2 rfl).1,
   (fetchValues_explicit_page_single_call exPolicy pageTransport "/pr"
      exReqPage2 5 2 rfl).2 ⟨[5], some "nx", some "pv"⟩ rfl⟩

/-- C6: when the first fetched page contains zero items, `fetchValues`
returns (in every mode) a successful result with empty `values` and
`fetchedPages` 1, after exactly one Transport call. -/
theorem fetchValues_empty_first_page_success {α : Type}
    (policy : PaginationPolicy) (t : Transport α) (path : String)
    (req : PaginationRequest) (fuel : ℕ) (pg : Page α)
    (hcall : t (firstRequest policy path req) = .ok pg)
    (hemp : pg.values = []) :
    fetchValuesT policy t path req fuel
      = (.ok (mkResult ([] : List α) (requestedPage req)
            (effectivePagelen policy req.pagelen) pg.next pg.previous 1),
         [firstRequest policy path req]) := by
  cases hpage : req.page with
  | some p =>
    simp only [firstRequest, hpage] at hcall ⊢
    simp only [fetchValuesT, requestedPage, hpage, hcall, hemp]
  | none =>
    simp only [firstRequest, hpage] at hcall ⊢
    cases hall : req.all with
    | false =>
      simp only [fetchValuesT, requestedPage, hpage, hall, hcall, hemp,
        Bool.false_eq_true, if_false]
    | true =>
      simp only [fetchValuesT, requestedPage, hpage, hall, hcall, hemp,
        if_true, List.isEmpty_nil]

/-- Closed instance of `fetchValues_empty_first_page_success` on an
exhaustive-mode run whose first page is empty. -/
theorem fetchValues_empty_first_page_success_witness :
    fetchValuesT exPolicy emptyFirstTransport "/repositories/w" exReqAll 5
      = (.ok (mkResult ([] : List ℕ) (requestedPage exReqAll)
            (effectivePagelen exPolicy exReqAll.pagelen) (some "u") none 1),
         [firstRequest exPolicy "/repositories/w" exReqAll]) :=
  fetchValues_empty_first_page_success exPolicy emptyFirstTransport
    "/repositories/w" exReqAll 5 ⟨[], some "u", none⟩ rfl rfl

/-- C7: the returned `values` are exactly the concatenation of the
fetched pages' item sequences in fetch order — truncated at the item
cap in exhaustive mode, untouched in the single-call modes — never
reordered, deduplicated or merged. -/
theorem fetchValues_values_concat_of_pages {α : Type}
    (policy : PaginationPolicy) (t : Transport α) (path : String)
    (req : PaginationRequest) (fuel : ℕ) (r : PaginationResult α)
    (h : fetchValues policy t path req fuel = .ok r) :
    (req.page = none → req.all = true →
      r.values = (((fetchValuesT policy t path req fuel).2).flatMap
          (respValues t)).take policy.allItemsCap)
    ∧ (req.page ≠ none ∨ req.all = false →
      r.values = ((fetchValuesT policy t path req fuel).2).flatMap (respValues t)) := by
  have h2 : fetchValuesT policy t path req fuel
      = (.ok r, (fetchValuesT policy t path req fuel).2) := by
    rw [← h]; rfl
  have main := fetchValuesT_ok_main policy t path req fuel r _ h2
  refine ⟨fun hpage hall => (main.2.1 hpage hall).2.2, ?_⟩
  intro hcase
  cases hpage : req.page with
  | some p => exact main.2.2.1 p hpage
  | none =>
    rcases hcase with hne | hfalse
    · exact absurd hpage hne
    · exact main.2.2.2 hpage hfalse

/-- Closed instance of `fetchValues_values_concat_of_pages`: a two-page
exhaustive run returns the two pages' items concatenated in order and
truncated at the cap. -/
theorem fetchValues_values_concat_of_pages_witness :
    (⟨[1, 2, 3], 2, 10, some "n3", some "n1", 2, 3⟩ : PaginationResult ℕ).values
      = (((fetchValuesT exPolicy exTransport "/repositories/w" exReqAll 5).2).flatMap
          (respValues exTransport)).take exPolicy.allItemsCap :=
  (fetchValues_values_concat_of_pages exPolicy exTransport "/repositories/w"
    exReqAll 5 _ rfl).1 rfl rfl

/-- C8: in every caller accepting the legacy `limit` alias
(`listRepositories`, `getPullRequests`, `listPipelineRuns`) the alias
is resolved before the Paginator is invoked: the `pagelen` of the
request handed to `fetchValues` is the caller's `pagelen` when one is
supplied and otherwise the legacy `limit` (JS `pagelen ?? limit`), and
— since `PaginationRequest` carries no `limit` field — the request is
entirely independent of `limit` once `pagelen` is supplied. -/
theorem legacy_limit_resolved_before_paginator
    (dw w nm st tb tt : Option String) (ws rs : String)
    (pl lim lim2 : PagelenArg) (page : Option ℕ) (allFlag : Bool) :
    (∀ path req, listRepositoriesRequest dw w pl page allFlag nm lim = .ok (path, req) →
      req.pagelen = jsCoalesce pl lim)
    ∧ (getPullRequestsRequest ws rs st pl page allFlag lim).2.pagelen = jsCoalesce pl lim
    ∧ (listPipelineRunsRequest ws rs st tb tt pl page allFlag lim).2.pagelen = jsCoalesce pl lim
    ∧ (pl ≠ .absent → jsCoalesce pl lim = pl)
    ∧ jsCoalesce .absent lim = lim
    ∧ (pl ≠ .absent →
        listRepositoriesRequest dw w pl page allFlag nm lim
            = listRepositoriesRequest dw w pl page allFlag nm lim2
        ∧ getPullRequestsRequest ws rs st pl page allFlag lim
            = getPullRequestsRequest ws rs st pl page allFlag lim2
        ∧ listPipelineRunsRequest ws rs st tb tt pl page allFlag lim
            = listPipelineRunsRequest ws rs st tb tt pl page allFlag lim2) := by
  have hco : pl ≠ .absent → ∀ l : PagelenArg, jsCoalesce pl l = pl := by
    intro hne l
    cases pl with
    | absent => exact absurd rfl hne
    | finite q => rfl
    | nan => rfl
    | posInf => rfl
    | negInf => rfl
    | nonNumber => rfl
  refine ⟨?_, rfl, rfl, fun hne => hco hne lim, rfl, ?_⟩
  · intro path req h
    simp only [listRepositoriesRequest] at h
    split at h <;> split at h <;>
      first
      | exact Except.noConfusion h
      | (injection h with h1
         injection h1 with hpath hreq
         rw [← hreq])
  · intro hne
    refine ⟨?_, ?_, ?_⟩
    · simp only [listRepositoriesRequest, hco hne lim, hco hne lim2]
    · simp only [getPullRequestsRequest, hco hne lim, hco hne lim2]
    · simp only [listPipelineRunsRequest, hco hne lim, hco hne lim2]

/-- Closed instance of `legacy_limit_resolved_before_paginator`: with
`pagelen` 20 and legacy `limit` 50 supplied together, the request built
by `listRepositories` carries `pagelen` 20. -/
theorem legacy_limit_resolved_before_paginator_witness :
    ({ pagelen := .finite 20, page := none, all := false,
       params := [("q", "name~\"api\"")],
       description := "listRepositories" } : PaginationRequest).pagelen
      = jsCoalesce (.finite 20) (.finite 50) :=
  (legacy_limit_resolved_before_paginator (some "ws") none (some "api")
      none none none "w" "r" (.finite 20) (.finite 50) (.finite 50) none false).1
    "/repositories/ws"
    { pagelen := .finite 20, page := none, all := false,
      params := [("q", "name~\"api\"")], description := "listRepositories" }
    rfl

/-- C9: every dangerous tool (member of the dangerous set or named with
a case-insensitive `delete` prefix) is omitted from the listed tools
and rejected with `MethodNotFound` — before any HTTP request can be
issued — when dangerous commands are not enabled; with dangerous
commands enabled the full tool list is exposed and the same tools are
dispatched normally. -/
theorem dangerous_tools_gated (name : String)
    (hd : isDangerousTool name = true) :
    name ∉ listedTools false
    ∧ callTool false name = .methodNotFoundDisabled
    ∧ listedTools true = toolNames
    ∧ (name ∈ toolNames → name ∈ listedTools true)
    ∧ (name ∈ toolNames → callTool true name = .dispatched name) := by
  have hlist : listedTools true = toolNames := by
    simp [listedTools]
  refine ⟨?_, ?_, hlist, ?_, ?_⟩
  · intro hmem
    rw [listedTools, List.mem_filter] at hmem
    rw [hd] at hmem
    simp at hmem
  · simp [callTool, hd]
  · intro hmem
    rw [hlist]
    exact hmem
  · intro hmem
    simp only [callTool, hd, Bool.not_true, Bool.and_false, Bool.false_eq_true,
      if_false]
    rw [if_pos (List.elem_iff.mpr hmem)]

/-- Closed instance of `dangerous_tools_gated` for
`deletePullRequestTask`. -/
theorem dangerous_tools_gated_witness :
    "deletePullRequestTask" ∉ listedTools false
    ∧ callTool false "deletePullRequestTask" = .methodNotFoundDisabled
    ∧ callTool true "deletePullRequestTask" = .dispatched "deletePullRequestTask" :=
  ⟨(dangerous_tools_gated "deletePullRequestTask" (by decide)).1,
   (dangerous_tools_gated "deletePullRequestTask" (by decide)).2.1,
   (dangerous_tools_gated "deletePullRequestTask" (by decide)).2.2.2.2 (by decide)⟩

/-- The first element surviving `dropWhile p` does not satisfy `p`. -/
theorem head_dropWhile_not {α : Type} (p : α → Bool) :
    ∀ (l : List α) (x : α), (l.dropWhile p).head? = some x → p x = false := by
  intro l
  induction l with
  | nil =>
    intro x h
    simp [List.dropWhile] at h
  | cons a as ih =>
    intro x h
    rw [List.dropWhile_cons] at h
    by_cases hpa : p a = true
    · rw [if_pos hpa] at h
      exact ih x h
    · rw [if_neg hpa] at h
      simp only [List.head?_cons, Option.some.injEq] at h
      subst h
      exact Bool.eq_false_iff.mpr hpa

/-- `stripTrailingSlashes` leaves no trailing slash. -/
theorem stripTrailingSlashes_no_trailing (s : String) :
    (stripTrailingSlashes s).data.getLast? ≠ some '/' := by
  intro h
  have h2 : ((s.data.reverse.dropWhile (fun c => c = '/')).reverse).getLast?
      = some '/' := h
  rw [List.getLast?_reverse] at h2
  have h3 := head_dropWhile_not _ s.data.reverse '/' h2
  simp at h3

/-- After a successful URL parse the normalized `baseUrl` is always the
slash-stripped form of some string. -/
theorem normalize_baseUrl_is_stripped (parse : String → Option URLParts)
    (cfg : BitbucketConfig) (parts : URLParts)
    (hp : parse cfg.baseUrl = some parts) :
    ∃ s, (normalizeBitbucketConfig parse cfg).baseUrl = stripTrailingSlashes s := by
  simp only [normalizeBitbucketConfig, hp]
  exact ⟨_, rfl⟩

/-- C10: `normalizeBitbucketConfig` leaves an unparsable `baseUrl`
unchanged; rewrites a `bitbucket.org`/`www.bitbucket.org` web URL to
the public API base, donating the first path segment as the default
workspace when none was set; rewrites any `api.bitbucket.org` URL to
the `/2.0` API base; and strips every trailing slash from the
normalized `baseUrl` of any valid URL. -/
theorem normalizeBitbucketConfig_spec (parse : String → Option URLParts)
    (cfg : BitbucketConfig) :
    (parse cfg.baseUrl = none → normalizeBitbucketConfig parse cfg = cfg)
    ∧ (∀ parts, parse cfg.baseUrl = some parts →
        ((jsToLower parts.hostname = "bitbucket.org" ∨
            jsToLower parts.hostname = "www.bitbucket.org") →
          (normalizeBitbucketConfig parse cfg).baseUrl
              = "https://api.bitbucket.org/2.0"
          ∧ (jsFalsyStrOpt cfg.defaultWorkspace = true →
              ∀ s0 rest, pathSegments parts.pathname = s0 :: rest →
                (normalizeBitbucketConfig parse cfg).defaultWorkspace = some s0))
        ∧ (jsToLower parts.hostname = "api.bitbucket.org" →
            (normalizeBitbucketConfig parse cfg).baseUrl
              = "https://api.bitbucket.org/2.0")
        ∧ (normalizeBitbucketConfig parse cfg).baseUrl.data.getLast? ≠ some '/') := by
  have hstrip : stripTrailingSlashes "https://api.bitbucket.org/2.0"
      = "https://api.bitbucket.org/2.0" := by decide
  constructor
  · intro h
    simp only [normalizeBitbucketConfig, h]
  · intro parts hp
    refine ⟨?_, ?_, ?_⟩
    · intro hb
      constructor
      · rcases hb with hb | hb <;> simp [normalizeBitbucketConfig, hp, hb, hstrip]
      · intro hfal s0 rest hseg
        rcases hb with hb | hb <;>
          simp [normalizeBitbucketConfig, hp, hb, hfal, hseg]
    · intro ha
      simp [normalizeBitbucketConfig, hp, ha, hstrip, ite_self]
    · obtain ⟨s, hs⟩ := normalize_baseUrl_is_stripped parse cfg parts hp
      rw [hs]
      exact stripTrailingSlashes_no_trailing s

/-- Closed instance of `normalizeBitbucketConfig_spec`: a web URL
`https://bitbucket.org/myws/repo/` is rewritten to the API base and
donates `myws` as the default workspace. -/
theorem normalizeBitbucketConfig_spec_witness :
    (normalizeBitbucketConfig exParse exRawConfig).baseUrl
        = "https://api.bitbucket.org/2.0"
    ∧ (normalizeBitbucketConfig exParse exRawConfig).defaultWorkspace
        = some "myws" :=
  ⟨(((normalizeBitbucketConfig_spec exParse exRawConfig).2
      ⟨"bitbucket.org", "/myws/repo/"⟩ (by decide)).1 (Or.inl (by decide))).1,
   (((normalizeBitbucketConfig_spec exParse exRawConfig).2
      ⟨"bitbucket.org", "/myws/repo/"⟩ (by decide)).1 (Or.inl (by decide))).2
     rfl "myws" ["repo"] (by decide)⟩

end BitbucketMcp
